import Mathlib

/-!
Shallow embedding of the `merge_signals_with_crsp` notebook: the one-month
lag of signals, the left join of CRSP returns onto lagged signals, and the
portfolio-sort summary cell (pandas `qcut` quantile bucketing followed by
two group-by aggregations).

Numeric columns are modelled as `ℚ` with missing values as `Option`.
Pandas `qcut` computes q+1 linearly interpolated quantile edges over the
non-missing values, raises `ValueError` when the edges are not unique
(and there are not exactly two of them), and otherwise assigns each
non-missing value the 1-based index of its right-closed interval
(`searchsorted` on the left, with the lowest edge included in bin 1).
The sample standard deviation of returns is recorded by its square
(`retStdSq`), since the square root leaves `ℚ`; all other aggregates are
exact.
-/

namespace OpenAP

/-- Observation: one row of the merged table restricted to one signal column:
entity id (permno), period key (encoded calendar date `yyyymmdd`), the period
return (possibly missing), and the selected signal value (possibly missing). -/
structure Obs where
  permno : Nat
  date : Nat
  ret : Option ℚ
  signal : Option ℚ
deriving DecidableEq, Repr

/-- Mean of a list of rationals (0 on the empty list, as `0 / 0 = 0`). -/
def qmean (l : List ℚ) : ℚ := l.sum / (l.length : ℚ)

/-- Pandas-style mean of a column with missing values: skip the missing
entries, `none` when nothing remains. -/
def meanOpt (l : List (Option ℚ)) : Option ℚ :=
  let v := l.filterMap id
  if v.isEmpty then none else some (qmean v)

/-- Sample variance (denominator `n - 1`). -/
def svar (l : List ℚ) : ℚ :=
  (l.map (fun x => (x - qmean l) ^ 2)).sum / ((l.length : ℚ) - 1)

/-- Square of the pandas sample standard deviation of a column with missing
values: skip missing entries, `none` when fewer than two remain. -/
def stdSqOpt (l : List (Option ℚ)) : Option ℚ :=
  let v := l.filterMap id
  if v.length ≤ 1 then none else some (svar v)

/-- Linear-interpolation quantile of an already sorted list at probability
`p`: numpy position `p * (n - 1)`, interpolating between the neighbouring
order statistics. -/
def quantileAt (xs : List ℚ) (p : ℚ) : ℚ :=
  let pos : ℚ := p * ((xs.length : ℚ) - 1)
  let lo : Nat := (Int.floor pos).toNat
  let a := xs.getD lo 0
  let b := xs.getD (lo + 1) a
  a + (pos - (Int.floor pos : ℚ)) * (b - a)

/-- Ascending sort of the non-missing signal values. -/
def sortAsc (l : List ℚ) : List ℚ := l.insertionSort (· ≤ ·)

/-- Quantile bin edges of `pd.qcut(x, q)`: the quantiles of the non-missing
data at probabilities `0/q, 1/q, ..., q/q` (numpy linspace). -/
def qcutEdges (nm : List ℚ) (q : Nat) : List ℚ :=
  (List.range (q + 1)).map (fun i : Nat => quantileAt (sortAsc nm) ((i : ℚ) / (q : ℚ)))

/-- Index of the first edge that is `≥ v` (numpy `searchsorted`, side left),
or the length of the edge list when every edge is `< v`. -/
def searchsortedLeft (edges : List ℚ) (v : ℚ) : Nat :=
  match edges with
  | [] => 0
  | e :: rest => if v ≤ e then 0 else searchsortedLeft rest v + 1

/-- Bin label (1-based) that `pd.qcut` gives value `v` for the edge list
`edges`: searchsorted index, values equal to the lowest edge forced into
bin 1 (`include_lowest`), out-of-range indices becoming missing. -/
def qcutAssign (edges : List ℚ) (v : ℚ) : Option Nat :=
  let i0 := searchsortedLeft edges v
  let i := if edges.head? = some v then 1 else i0
  if 1 ≤ i ∧ i < edges.length then some i else none

/-- Raw bin index of `pd.qcut`, before the validity test: searchsorted
position, with values equal to the lowest edge forced into bin 1. -/
def qcutIdx (edges : List ℚ) (v : ℚ) : Nat :=
  if edges.head? = some v then 1 else searchsortedLeft edges v

/-- Whether `pd.qcut` succeeds on one period's signal column: it raises
`ValueError` exactly when the computed edges contain duplicates and there
are not exactly two edges (pandas exempts the two-edge case); with no
non-missing data every edge is `NaN`, which counts as duplicated once
there are at least three edges. -/
def qcutOk (col : List (Option ℚ)) (q : Nat) : Bool :=
  let nm := col.filterMap id
  if nm.isEmpty then decide (q ≤ 1)
  else
    let e := qcutEdges nm q
    decide (e.dedup.length = e.length ∨ e.length = 2)

/-- Signal column of the group of observations sharing period `d`. -/
def groupSignals (obs : List Obs) (d : Nat) : List (Option ℚ) :=
  (obs.filter (fun o => o.date == d)).map (·.signal)

/-- Portfolio label of one observation: `qcut` assignment against the
quantile edges of its own period's non-missing signal values; missing
signals get no label. -/
def portOf (obs : List Obs) (q : Nat) (o : Obs) : Option Nat :=
  o.signal.bind (fun v =>
    qcutAssign (qcutEdges ((groupSignals obs o.date).filterMap id) q) v)

/-- Distinct periods, in first-occurrence order. -/
def datesOf (obs : List Obs) : List Nat := (obs.map (·.date)).dedup

/-- Distinct periods in ascending order (pandas group-by sorts its keys). -/
def sortedDates (obs : List Obs) : List Nat :=
  (datesOf obs).insertionSort (· ≤ ·)

/-- Row of the `port` table: period, portfolio label, number of stocks,
mean return. -/
structure PortRow where
  date : Nat
  port : Nat
  nstock : Nat
  ret : Option ℚ
deriving DecidableEq, Repr

/-- Observations of period `d` assigned to portfolio `g`. -/
def portGroupRows (obs : List Obs) (q : Nat) (d : Nat) (g : Nat) : List Obs :=
  obs.filter (fun o => o.date == d && portOf obs q o == some g)

/-- Row of the `port` table for period `d` and portfolio `g`: the count of
(never-missing) permnos and the NaN-skipping mean return of that cell. -/
def portRowOf (obs : List Obs) (q : Nat) (d : Nat) (g : Nat) : PortRow :=
  ⟨d, g, (portGroupRows obs q d g).length,
    meanOpt ((portGroupRows obs q d g).map (·.ret))⟩

/-- The `port` table: `groupby(['date', 'port'], observed=False)` produces a
row for every pair of an observed period and a portfolio category `1..q`. -/
def portTable (obs : List Obs) (q : Nat) : List PortRow :=
  (sortedDates obs).flatMap (fun d =>
    (List.range q).map (fun g0 => portRowOf obs q d (g0 + 1)))

/-- Row of `port_summary`: per portfolio, mean and (squared) sample standard
deviation of the per-period mean returns, mean stock count, and the first
and last period present. -/
structure GroupSummary where
  port : Nat
  retMean : Option ℚ
  retStdSq : Option ℚ
  nstockMean : Option ℚ
  dateMin : Option Nat
  dateMax : Option Nat
deriving DecidableEq, Repr

/-- Rows of the `port` table belonging to portfolio `g`. -/
def summaryRows (obs : List Obs) (q : Nat) (g : Nat) : List PortRow :=
  (portTable obs q).filter (fun r => r.port == g)

/-- Row of `port_summary` for portfolio `g`, aggregating that portfolio's
per-period rows. -/
def summaryRowOf (obs : List Obs) (q : Nat) (g : Nat) : GroupSummary :=
  { port := g
    retMean := meanOpt ((summaryRows obs q g).map (·.ret))
    retStdSq := stdSqOpt ((summaryRows obs q g).map (·.ret))
    nstockMean :=
      if (summaryRows obs q g).isEmpty then none
      else some (qmean ((summaryRows obs q g).map (fun r => (r.nstock : ℚ))))
    dateMin := ((summaryRows obs q g).map (·.date)).min?
    dateMax := ((summaryRows obs q g).map (·.date)).max? }

/-- The `port_summary` table: `groupby('port', observed=False)` over the
`port` table, one row per portfolio category `1..q`. -/
def portSummary (obs : List Obs) (q : Nat) : List GroupSummary :=
  (List.range q).map (fun g0 => summaryRowOf obs q (g0 + 1))

/-- Portfolio-sort summarizer of the sanity-check cell: assign portfolios by
per-period `qcut` (propagating its `ValueError` when any period's edges are
not unique), then aggregate; no validation of `q` itself is performed. -/
def summarize (obs : List Obs) (q : Nat) : Except String (List GroupSummary) :=
  if (datesOf obs).all (fun d => qcutOk (groupSignals obs d) q) then
    .ok (portSummary obs q)
  else
    .error "Bin edges must be unique"

/-- Row of the downloaded signals table: permno, `yyyymm` period, one column
per requested signal. -/
structure SignalRow where
  permno : Nat
  yyyymm : Nat
  bm : Option ℚ
  assetGrowth : Option ℚ
deriving DecidableEq, Repr

/-- Row of `signals_lag`: `yyyymm` kept as `yyyymm_signals`, plus the lagged
`date` column. -/
structure LagRow where
  permno : Nat
  yyyymmSignals : Nat
  bm : Option ℚ
  assetGrowth : Option ℚ
  date : Nat
deriving DecidableEq, Repr

/-- Row of the CRSP monthly file: permno, raw calendar date split into its
year-month (`yyyymm`) and day of month, and the return in percent. -/
structure CrspRow where
  permno : Nat
  ym : Nat
  day : Nat
  ret : Option ℚ
deriving DecidableEq, Repr

/-- Row of `crsp_signals`, the left join of CRSP returns onto the lagged
signals; signal columns are missing when no signal row matched. -/
structure MergedRow where
  permno : Nat
  date : Nat
  ret : Option ℚ
  yyyymmSignals : Option Nat
  bm : Option ℚ
  assetGrowth : Option ℚ
deriving DecidableEq, Repr

/-- Successor month of a `yyyymm` integer (`pd.DateOffset(months=1)` on the
28th of the month, which never clamps the day). -/
def monthSucc (yyyymm : Nat) : Nat :=
  if yyyymm % 100 = 12 then (yyyymm / 100 + 1) * 100 + 1 else yyyymm + 1

/-- Date key produced for a signal period: the 28th of the following month,
encoded as `yyyymmdd`. -/
def lagDate (yyyymm : Nat) : Nat := monthSucc yyyymm * 100 + 28

/-- The `signals_lag` table: rename `yyyymm` and add the lagged `date`. -/
def signalsLag (signals : List SignalRow) : List LagRow :=
  signals.map (fun s => ⟨s.permno, s.yyyymm, s.bm, s.assetGrowth, lagDate s.yyyymm⟩)

/-- CRSP date normalized to the 28th of its month, encoded as `yyyymmdd`. -/
def crspDate28 (c : CrspRow) : Nat := c.ym * 100 + 28

/-- Left join of CRSP returns onto lagged signals on `(permno, date)`:
every CRSP row is kept, paired with each matching signal row, or with
missing signal columns when none matches. -/
def mergeLeft (crsp : List CrspRow) (lag : List LagRow) : List MergedRow :=
  crsp.flatMap (fun c =>
    let ms := lag.filter (fun s => s.permno == c.permno && s.date == crspDate28 c)
    if ms.isEmpty then [⟨c.permno, crspDate28 c, c.ret, none, none, none⟩]
    else ms.map (fun s =>
      ⟨c.permno, crspDate28 c, c.ret, some s.yyyymmSignals, s.bm, s.assetGrowth⟩))

/-- Projection of a merged row onto the columns the sanity-check cell
selects (`temp = crsp_signals[['permno', 'date', 'ret', signalname]]`),
with `sel` choosing the signal column. -/
def toObs (sel : MergedRow → Option ℚ) (r : MergedRow) : Obs :=
  ⟨r.permno, r.date, r.ret, sel r⟩

/-- One run of the sanity-check cell as a state transformer on the notebook
state (the `crsp_signals` table): the cell copies the selected columns
(`.copy()`), mutates only that copy, and returns the summary; the state it
leaves behind is therefore the unchanged input table. -/
def cellRun (t : List MergedRow) (sel : MergedRow → Option ℚ) (q : Nat) :
    List MergedRow × Except String (List GroupSummary) :=
  let temp := t.map (toObs sel)
  (t, summarize temp q)

/-! ### Concrete scenarios -/

/-- Ten entities in one period with signal (and return) values 1..10. -/
def scenarioTen : List Obs :=
  (List.range 10).map (fun i : Nat => ⟨i + 1, 28, some ((i : ℚ) + 1), some ((i : ℚ) + 1)⟩)

/-- Three entities in one period with distinct signal values 1, 2, 3. -/
def scenarioThree : List Obs :=
  [⟨1, 28, some 1, some 1⟩, ⟨2, 28, some 2, some 2⟩, ⟨3, 28, some 3, some 3⟩]

/-- Three entities in one period whose signal values are all equal. -/
def scenarioTied : List Obs :=
  [⟨1, 28, some 1, some 7⟩, ⟨2, 28, some 2, some 7⟩, ⟨3, 28, some 3, some 7⟩]

/-- One signal row and the CRSP row of the following month, for the merge. -/
def demoSignals : List SignalRow := [⟨10001, 198612, none, none⟩]

/-- CRSP row whose month is the successor of `demoSignals`' period. -/
def demoCrsp : List CrspRow := [⟨10001, 198701, 31, none⟩]

/-! ### Basic lemmas about the quantile machinery -/

theorem quantileAt_zero (xs : List ℚ) : quantileAt xs 0 = xs.getD 0 0 := by
  simp [quantileAt]

theorem quantileAt_one (xs : List ℚ) (h : xs ≠ []) :
    quantileAt xs 1 = xs.getD (xs.length - 1) 0 := by
  have hlen : 1 ≤ xs.length := List.length_pos.mpr h
  unfold quantileAt
  have h1 : (1 : ℚ) * ((xs.length : ℚ) - 1) = ((xs.length - 1 : ℕ) : ℚ) := by
    push_cast [hlen]
    ring
  have h2 : Int.floor (((xs.length - 1 : ℕ) : ℚ)) = ((xs.length - 1 : ℕ) : ℤ) :=
    Int.floor_natCast _
  simp [h1, h2]

theorem qcutEdges_length (nm : List ℚ) (q : Nat) : (qcutEdges nm q).length = q + 1 := by
  rw [qcutEdges, List.length_map, List.length_range]

theorem qcutEdges_head (nm : List ℚ) (q : Nat) :
    (qcutEdges nm q).head? = some ((sortAsc nm).getD 0 0) := by
  have h : List.range (q + 1) = 0 :: (List.range q).map Nat.succ :=
    List.range_succ_eq_map q
  rw [qcutEdges, h, List.map_cons, List.head?_cons]
  norm_num [quantileAt_zero]

theorem qcutEdges_getD_last (nm : List ℚ) (q : Nat) (hq : 1 ≤ q) :
    (qcutEdges nm q).getD q 0 = quantileAt (sortAsc nm) 1 := by
  have hmem : q < (List.range (q + 1)).length := by
    rw [List.length_range]; omega
  have h : (qcutEdges nm q).getD q 0
      = quantileAt (sortAsc nm) ((q : ℚ) / (q : ℚ)) := by
    rw [qcutEdges, List.getD_eq_getElem?_getD, List.getElem?_map,
      List.getElem?_range (by omega)]
    rfl
  rw [h]
  have hq0 : (q : ℚ) ≠ 0 := by
    exact_mod_cast (by omega : q ≠ 0)
  rw [div_self hq0]

theorem sortAsc_sorted (l : List ℚ) : (sortAsc l).Sorted (· ≤ ·) :=
  List.sorted_insertionSort _ l

theorem sortAsc_perm (l : List ℚ) : List.Perm (sortAsc l) l :=
  List.perm_insertionSort _ l

theorem mem_sortAsc {l : List ℚ} {v : ℚ} (h : v ∈ l) : v ∈ sortAsc l :=
  (sortAsc_perm l).symm.subset h

theorem sortAsc_ne_nil {l : List ℚ} (h : l ≠ []) : sortAsc l ≠ [] := by
  intro hnil
  have hp : l.Perm ([] : List ℚ) := hnil ▸ (sortAsc_perm l).symm
  exact h hp.eq_nil

theorem sorted_head_le {xs : List ℚ} (hs : xs.Sorted (· ≤ ·)) {v : ℚ}
    (hv : v ∈ xs) : xs.getD 0 0 ≤ v := by
  cases xs with
  | nil => cases hv
  | cons a l =>
    rcases List.mem_cons.mp hv with rfl | hmem
    · simp
    · simpa using (List.sorted_cons.mp hs).1 v hmem

theorem sorted_le_last {xs : List ℚ} (hs : xs.Sorted (· ≤ ·)) :
    ∀ v ∈ xs, v ≤ xs.getD (xs.length - 1) 0 := by
  induction xs with
  | nil => intro v hv; cases hv
  | cons a l ih =>
    intro v hv
    rcases List.sorted_cons.mp hs with ⟨ha, hl⟩
    cases l with
    | nil =>
      rcases List.mem_cons.mp hv with rfl | hmem
      · simp
      · cases hmem
    | cons b m =>
      have hlast : ((a :: b :: m).getD ((a :: b :: m).length - 1) 0)
          = ((b :: m).getD ((b :: m).length - 1) 0) := by
        simp
      rcases List.mem_cons.mp hv with rfl | hmem
      · have hb : v ≤ b := ha b (by simp)
        have hrest := ih hl b (by simp)
        rw [hlast]
        exact le_trans hb hrest
      · rw [hlast]
        exact ih hl v hmem

theorem searchsortedLeft_le {l : List ℚ} {v : ℚ} {k : Nat}
    (hk : k < l.length) (hv : v ≤ l.getD k 0) : searchsortedLeft l v ≤ k := by
  induction l generalizing k with
  | nil => simp at hk
  | cons e rest ih =>
    cases k with
    | zero =>
      simp only [List.getD_cons_zero] at hv
      simp [searchsortedLeft, hv]
    | succ k =>
      simp only [List.getD_cons_succ] at hv
      by_cases hve : v ≤ e
      · simp [searchsortedLeft, hve]
      · simp only [searchsortedLeft, hve, if_false]
        have := ih (by simpa using Nat.lt_of_succ_lt_succ hk) hv
        omega

theorem searchsortedLeft_mono {l : List ℚ} {v w : ℚ} (hvw : v ≤ w) :
    searchsortedLeft l v ≤ searchsortedLeft l w := by
  induction l with
  | nil => simp [searchsortedLeft]
  | cons e rest ih =>
    by_cases hw : w ≤ e
    · have hv : v ≤ e := le_trans hvw hw
      simp [searchsortedLeft, hv, hw]
    · by_cases hv : v ≤ e
      · simp [searchsortedLeft, hv, hw]
      · simp only [searchsortedLeft, hv, hw, if_false]
        omega

theorem qcutAssign_eq (e : List ℚ) (v : ℚ) :
    qcutAssign e v =
      if 1 ≤ qcutIdx e v ∧ qcutIdx e v < e.length then some (qcutIdx e v) else none := rfl

theorem qcutAssign_eq_some_iff {e : List ℚ} {v : ℚ} {g : Nat} :
    qcutAssign e v = some g ↔
      g = qcutIdx e v ∧ 1 ≤ g ∧ g + 1 ≤ e.length := by
  rw [qcutAssign_eq]
  by_cases hc : 1 ≤ qcutIdx e v ∧ qcutIdx e v < e.length
  · rw [if_pos hc, Option.some_inj]
    constructor
    · intro h
      refine ⟨h.symm, ?_, ?_⟩
      · rw [← h]; exact hc.1
      · rw [← h]; omega
    · intro h
      exact h.1.symm
  · rw [if_neg hc]
    constructor
    · intro h; cases h
    · intro h
      refine absurd ⟨?_, ?_⟩ hc
      · rw [← h.1]; exact h.2.1
      · rw [← h.1]; omega

theorem qcutAssign_bounds {e : List ℚ} {v : ℚ} {g : Nat}
    (h : qcutAssign e v = some g) : 1 ≤ g ∧ g + 1 ≤ e.length :=
  (qcutAssign_eq_some_iff.mp h).2

theorem qcutAssign_total {nm : List ℚ} {q : Nat} (hq : 1 ≤ q) {v : ℚ}
    (hv : v ∈ nm) : ∃ g, qcutAssign (qcutEdges nm q) v = some g ∧ 1 ≤ g ∧ g ≤ q := by
  have hnm : nm ≠ [] := List.ne_nil_of_mem hv
  have hsv : v ∈ sortAsc nm := mem_sortAsc hv
  have hlow : (sortAsc nm).getD 0 0 ≤ v := sorted_head_le (sortAsc_sorted nm) hsv
  have hhigh : v ≤ (sortAsc nm).getD ((sortAsc nm).length - 1) 0 :=
    sorted_le_last (sortAsc_sorted nm) v hsv
  have hlast : (qcutEdges nm q).getD q 0 = (sortAsc nm).getD ((sortAsc nm).length - 1) 0 := by
    rw [qcutEdges_getD_last nm q hq, quantileAt_one _ (sortAsc_ne_nil hnm)]
  have hhead : (qcutEdges nm q).head? = some ((sortAsc nm).getD 0 0) :=
    qcutEdges_head nm q
  have hlen : (qcutEdges nm q).length = q + 1 := qcutEdges_length nm q
  by_cases hv0 : (qcutEdges nm q).head? = some v
  · refine ⟨1, ?_, le_refl 1, hq⟩
    rw [qcutAssign_eq_some_iff]
    refine ⟨?_, le_refl 1, by omega⟩
    rw [qcutIdx, if_pos hv0]
  · have hne : (sortAsc nm).getD 0 0 ≠ v := by
      intro heq
      exact hv0 (by rw [hhead, heq])
    have hlt : (sortAsc nm).getD 0 0 < v := lt_of_le_of_ne hlow hne
    have hk : searchsortedLeft (qcutEdges nm q) v ≤ q := by
      apply searchsortedLeft_le (by omega)
      rw [hlast]
      exact hhigh
    have hpos : 1 ≤ searchsortedLeft (qcutEdges nm q) v := by
      cases hE : qcutEdges nm q with
      | nil => rw [hE] at hlen; simp at hlen
      | cons e rest =>
        have he : e = (sortAsc nm).getD 0 0 := by
          rw [hE] at hhead
          exact (Option.some.injEq _ _ ▸ hhead :)
        have hnle : ¬ v ≤ e := by rw [he]; exact not_le.mpr hlt
        simp [searchsortedLeft, hnle]
    refine ⟨searchsortedLeft (qcutEdges nm q) v, ?_, hpos, hk⟩
    rw [qcutAssign_eq_some_iff]
    exact ⟨by rw [qcutIdx, if_neg hv0], hpos, by omega⟩

theorem qcutAssign_le {e : List ℚ} {v w : ℚ} {i j : Nat}
    (hi : qcutAssign e v = some i) (hj : qcutAssign e w = some j)
    (hij : i < j) : v ≤ w := by
  by_contra hlt
  push_neg at hlt
  rcases qcutAssign_eq_some_iff.mp hi with ⟨hiv, hi1, _⟩
  rcases qcutAssign_eq_some_iff.mp hj with ⟨hjw, hj1, _⟩
  by_cases hw : e.head? = some w
  · rw [qcutIdx, if_pos hw] at hjw
    omega
  · rw [qcutIdx, if_neg hw] at hjw
    by_cases hv : e.head? = some v
    · cases e with
      | nil => simp [searchsortedLeft] at hjw; omega
      | cons a rest =>
        have ha : a = v := by
          have := hv
          simp only [List.head?_cons, Option.some.injEq] at this
          exact this
        have hwa : w ≤ a := le_of_lt (ha ▸ hlt)
        rw [searchsortedLeft, if_pos hwa] at hjw
        omega
    · rw [qcutIdx, if_neg hv] at hiv
      have hmono : searchsortedLeft e w ≤ searchsortedLeft e v :=
        searchsortedLeft_mono (le_of_lt hlt)
      omega

/-! ### Mean bounds -/

theorem qmean_le_of_forall_le {l : List ℚ} {c : ℚ}
    (h : ∀ x ∈ l, x ≤ c) (hne : l ≠ []) : qmean l ≤ c := by
  have hpos : 0 < (l.length : ℚ) := by
    exact_mod_cast List.length_pos.mpr hne
  have hsum : l.sum ≤ (l.length : ℚ) * c := by
    have := List.sum_le_card_nsmul l c h
    simpa [nsmul_eq_mul] using this
  rw [qmean, div_le_iff₀ hpos]
  linarith [hsum]

theorem le_qmean_of_forall_le {l : List ℚ} {c : ℚ}
    (h : ∀ x ∈ l, c ≤ x) (hne : l ≠ []) : c ≤ qmean l := by
  have hpos : 0 < (l.length : ℚ) := by
    exact_mod_cast List.length_pos.mpr hne
  have hsum : (l.length : ℚ) * c ≤ l.sum := by
    have := List.card_nsmul_le_sum l c h
    simpa [nsmul_eq_mul] using this
  rw [qmean, le_div_iff₀ hpos]
  linarith [hsum]

/-! ### Membership of a value in its period's non-missing signal list -/

theorem mem_group_nm {obs : List Obs} {o : Obs} {v : ℚ}
    (ho : o ∈ obs) (hv : o.signal = some v) :
    v ∈ (groupSignals obs o.date).filterMap id := by
  rw [List.mem_filterMap]
  refine ⟨some v, ?_, rfl⟩
  rw [groupSignals, List.mem_map]
  refine ⟨o, ?_, hv⟩
  rw [List.mem_filter]
  exact ⟨ho, by simp⟩

theorem portOf_eq_assign {obs : List Obs} {q : Nat} {o : Obs} {v : ℚ}
    (hv : o.signal = some v) :
    portOf obs q o
      = qcutAssign (qcutEdges ((groupSignals obs o.date).filterMap id) q) v := by
  rw [portOf, hv]
  rfl

/-! ### Claim theorems -/

/-- C7: on ten entities in a single period with signal values 1..10 and
`n_groups = 5`, summarize succeeds and assigns exactly two entities to each
group, group 1 holding the entities with signal values {1, 2} and group 5
those with values {9, 10}. -/
theorem ten_entities_five_groups_two_each :
    (summarize scenarioTen 5).isOk = true ∧
    (portTable scenarioTen 5).map (fun r => (r.port, r.nstock)) =
      [(1, 2), (2, 2), (3, 2), (4, 2), (5, 2)] ∧
    (scenarioTen.filter (fun o => portOf scenarioTen 5 o == some 1)).map (·.signal) =
      [some 1, some 2] ∧
    (scenarioTen.filter (fun o => portOf scenarioTen 5 o == some 5)).map (·.signal) =
      [some 9, some 10] := by
  with_unfolding_all decide

/-- C2 counterexample: with `n_groups = 1` and `n_groups = 0` the summarizer
raises nothing and returns a result (`pd.qcut` performs no validation of
`q`), refuting that an InvalidConfiguration error is raised. -/
theorem no_error_for_small_n_groups :
    (summarize scenarioTen 1).isOk = true ∧
    summarize scenarioTen 0 = .ok [] := by
  constructor
  · with_unfolding_all decide
  · with_unfolding_all rfl

/-- C2 amended: summarize performs no validation of `n_groups` and raises no
error for `n_groups < 2`: with 0 groups it returns the empty summary and no
observation receives a group; with 1 group it succeeds and every
non-missing-signal observation is assigned group 1. -/
theorem summarize_small_n_groups (obs : List Obs) :
    summarize obs 0 = .ok [] ∧
    (summarize obs 1).isOk = true ∧
    (∀ o ∈ obs, portOf obs 0 o = none) ∧
    (∀ o ∈ obs, ∀ v, o.signal = some v → portOf obs 1 o = some 1) := by
  have hok0 : ∀ col, qcutOk col 0 = true := by
    intro col
    rw [qcutOk]
    by_cases hnm : (col.filterMap id).isEmpty
    · simp [hnm]
    · have h1 : (qcutEdges (col.filterMap id) 0).length = 1 := qcutEdges_length _ 0
      cases hE : qcutEdges (col.filterMap id) 0 with
      | nil => rw [hE] at h1; simp at h1
      | cons x rest =>
        rw [hE] at h1
        rw [List.length_cons] at h1
        have hrest : rest = [] := List.length_eq_zero.mp (by omega)
        subst hrest
        simp [hnm, hE]
  have hok1 : ∀ col, qcutOk col 1 = true := by
    intro col
    rw [qcutOk]
    by_cases hnm : (col.filterMap id).isEmpty
    · simp [hnm]
    · have h2 : (qcutEdges (col.filterMap id) 1).length = 2 := qcutEdges_length _ 1
      simp [hnm, h2]
  refine ⟨?_, ?_, ?_, ?_⟩
  · rw [summarize, if_pos]
    · rw [portSummary, List.range_zero, List.map_nil]
    · rw [List.all_eq_true]
      intro d _
      exact hok0 _
  · rw [summarize, if_pos]
    · rfl
    · rw [List.all_eq_true]
      intro d _
      exact hok1 _
  · intro o _
    cases hv : o.signal with
    | none => rw [portOf, hv]; rfl
    | some v =>
      rw [portOf_eq_assign hv, qcutAssign_eq, if_neg]
      intro hcond
      have := qcutEdges_length ((groupSignals obs o.date).filterMap id) 0
      omega
  · intro o ho v hv
    have hmem : v ∈ (groupSignals obs o.date).filterMap id := mem_group_nm ho hv
    obtain ⟨g, hg, hg1, hgq⟩ := qcutAssign_total (le_refl 1) hmem
    have hg_eq : g = 1 := by omega
    rw [portOf_eq_assign hv]
    exact hg_eq ▸ hg

/-- C2 amended, witness at a concrete input. -/
theorem summarize_small_n_groups_witness :
    summarize scenarioThree 0 = .ok [] ∧
    portOf scenarioThree 1 ⟨1, 28, some 1, some 1⟩ = some 1 := by
  have h := summarize_small_n_groups scenarioThree
  refine ⟨h.1, h.2.2.2 ⟨1, 28, some 1, some 1⟩ ?_ 1 rfl⟩
  rw [scenarioThree]
  exact List.mem_cons_self _ _

/-- C3 counterexample: a period with only three non-missing observations
(with distinct signal values) and `n_groups = 5` raises nothing: the edges
are unique, summarize succeeds and returns a full five-group summary in
which groups 2 and 4 are merely empty. -/
theorem no_error_for_small_period :
    (summarize scenarioThree 5).isOk = true ∧
    (portTable scenarioThree 5).map (fun r => (r.port, r.nstock)) =
      [(1, 1), (2, 0), (3, 1), (4, 0), (5, 1)] := by
  with_unfolding_all decide

/-- C8: running the sanity-check cell twice in succession on the same
notebook state with the same `n_groups` produces the identical summary and
leaves the state identical: the computation is deterministic in its
inputs. -/
theorem cellRun_deterministic (t : List MergedRow) (sel : MergedRow → Option ℚ) (q : Nat) :
    (cellRun ((cellRun t sel q).1) sel q).2 = (cellRun t sel q).2 ∧
    (cellRun ((cellRun t sel q).1) sel q).1 = (cellRun t sel q).1 :=
  ⟨rfl, rfl⟩

/-- C9: the sanity-check cell has no side effect on the merged table (it
mutates only the `.copy()` it takes), and its output is a pure function of
the table and `n_groups`. -/
theorem cellRun_pure (t : List MergedRow) (sel : MergedRow → Option ℚ) (q : Nat) :
    (cellRun t sel q).1 = t ∧
    (cellRun t sel q).2 = summarize (t.map (toObs sel)) q :=
  ⟨rfl, rfl⟩

/-- C1: every row of the merged table that carries a signal observation has
its join-key date equal to the signal's `yyyymm` period lagged by one month
and normalized to day 28, its return row matched on (permno, that lagged
date); the lagged date's month index is the signal period's plus one. -/
theorem merged_row_lag (crsp : List CrspRow) (signals : List SignalRow)
    (r : MergedRow) (hr : r ∈ mergeLeft crsp (signalsLag signals))
    (ym : Nat) (hym : r.yyyymmSignals = some ym) :
    r.date = lagDate ym ∧
    (∃ s ∈ signals, s.yyyymm = ym ∧ s.permno = r.permno) ∧
    (∃ c ∈ crsp, c.permno = r.permno ∧ crspDate28 c = r.date) ∧
    (1 ≤ ym % 100 → ym % 100 ≤ 12 →
      lagDate ym % 100 = 28 ∧
      lagDate ym / 100 / 100 * 12 + lagDate ym / 100 % 100
        = ym / 100 * 12 + ym % 100 + 1) := by
  rw [mergeLeft, List.mem_flatMap] at hr
  obtain ⟨c, hc, hrc⟩ := hr
  by_cases hms : ((signalsLag signals).filter
      (fun s => s.permno == c.permno && s.date == crspDate28 c)).isEmpty
  · rw [if_pos hms] at hrc
    simp only [List.mem_singleton] at hrc
    subst hrc
    cases hym
  · rw [if_neg hms, List.mem_map] at hrc
    obtain ⟨s', hs', hrs⟩ := hrc
    rw [List.mem_filter, Bool.and_eq_true, beq_iff_eq, beq_iff_eq] at hs'
    obtain ⟨hs'mem, hp, hdate⟩ := hs'
    rw [signalsLag, List.mem_map] at hs'mem
    obtain ⟨s, hs, hss⟩ := hs'mem
    subst hrs
    have hymd : s'.yyyymmSignals = ym := Option.some.inj hym
    have hs'date : s'.date = lagDate s.yyyymm := by rw [← hss]
    have hs'ym : s'.yyyymmSignals = s.yyyymm := by rw [← hss]
    have hs'p : s'.permno = s.permno := by rw [← hss]
    have hy : s.yyyymm = ym := by rw [← hs'ym, hymd]
    refine ⟨?_, ⟨s, hs, hy, ?_⟩, ⟨c, hc, rfl, rfl⟩, ?_⟩
    · show crspDate28 c = lagDate ym
      rw [← hdate, hs'date, hy]
    · show s.permno = c.permno
      rw [← hp, hs'p]
    · intro h1 h12
      rw [lagDate, monthSucc]
      by_cases h12eq : ym % 100 = 12
      · rw [if_pos h12eq]
        omega
      · rw [if_neg h12eq]
        omega

/-- C1 witness: the December 1986 signal of permno 10001 is joined to the
January 1987 return dated 1987-01-28. -/
theorem merged_row_lag_witness :
    (⟨10001, 19870128, none, some 198612, none, none⟩ : MergedRow).date
        = lagDate 198612 ∧
    lagDate 198612 % 100 = 28 := by
  have h := merged_row_lag demoCrsp demoSignals
    ⟨10001, 19870128, none, some 198612, none, none⟩
    (by decide) 198612 rfl
  exact ⟨h.1, (h.2.2.2 (by decide) (by decide)).1⟩

theorem meanOpt_eq_some {l : List (Option ℚ)} {a : ℚ} (h : meanOpt l = some a) :
    l.filterMap id ≠ [] ∧ a = qmean (l.filterMap id) := by
  simp only [meanOpt] at h
  by_cases he : (l.filterMap id).isEmpty
  · rw [if_pos he] at h
    cases h
  · rw [if_neg he] at h
    refine ⟨?_, (Option.some.inj h).symm⟩
    intro hn
    rw [hn] at he
    exact he rfl

theorem mem_portGroupRows {obs : List Obs} {q d g : Nat} {o : Obs} :
    o ∈ portGroupRows obs q d g ↔
      o ∈ obs ∧ o.date = d ∧ portOf obs q o = some g := by
  rw [portGroupRows, List.mem_filter, Bool.and_eq_true, beq_iff_eq, beq_iff_eq]

/-- C4: when summarize succeeds (and there is at least one group), every
observation with a non-missing signal value in its period is assigned
exactly one group label in 1..n_groups, and every observation with a
missing signal value receives no group assignment. -/
theorem assignment_partition (obs : List Obs) (q : Nat) (s : List GroupSummary)
    (hq : 1 ≤ q) (_hs : summarize obs q = .ok s) (o : Obs) (ho : o ∈ obs) :
    (∀ v, o.signal = some v →
      ∃ g, portOf obs q o = some g ∧ 1 ≤ g ∧ g ≤ q ∧
        ∀ g2, portOf obs q o = some g2 → g2 = g) ∧
    (o.signal = none → portOf obs q o = none) := by
  constructor
  · intro v hv
    obtain ⟨g, hg, hg1, hgq⟩ := qcutAssign_total hq (mem_group_nm ho hv)
    refine ⟨g, ?_, hg1, hgq, ?_⟩
    · rw [portOf_eq_assign hv]
      exact hg
    · intro g2 hg2
      rw [portOf_eq_assign hv, hg] at hg2
      exact (Option.some.inj hg2).symm
  · intro hv
    rw [portOf, hv]
    rfl

/-- C4 witness at the ten-entity scenario. -/
theorem assignment_partition_witness :
    ∃ g, portOf scenarioTen 5 ⟨1, 28, some 1, some 1⟩ = some g ∧ 1 ≤ g ∧ g ≤ 5 := by
  have h := assignment_partition scenarioTen 5 (portSummary scenarioTen 5)
    (by omega) (by with_unfolding_all rfl) ⟨1, 28, some 1, some 1⟩
    (by with_unfolding_all decide)
  obtain ⟨g, hg, hg1, hgq, _⟩ := h.1 1 rfl
  exact ⟨g, hg, hg1, hgq⟩

/-- C6: in any period, the average signal value of the entities assigned to
group 1 is at most the average signal value of the entities assigned to
group n_groups. -/
theorem group_one_le_group_top (obs : List Obs) (q : Nat) (d : Nat)
    (hq : 2 ≤ q) (a b : ℚ)
    (ha : meanOpt ((portGroupRows obs q d 1).map (·.signal)) = some a)
    (hb : meanOpt ((portGroupRows obs q d q).map (·.signal)) = some b) :
    a ≤ b := by
  obtain ⟨hA, haA⟩ := meanOpt_eq_some ha
  obtain ⟨hB, hbB⟩ := meanOpt_eq_some hb
  subst haA
  subst hbB
  have key : ∀ x ∈ ((portGroupRows obs q d 1).map (·.signal)).filterMap id,
      ∀ y ∈ ((portGroupRows obs q d q).map (·.signal)).filterMap id, x ≤ y := by
    intro x hx y hy
    rw [List.mem_filterMap] at hx hy
    obtain ⟨ox?, hox?, hoxid⟩ := hx
    obtain ⟨oy?, hoy?, hoyid⟩ := hy
    rw [List.mem_map] at hox? hoy?
    obtain ⟨ox, hoxg, hoxsig⟩ := hox?
    obtain ⟨oy, hoyg, hoysig⟩ := hoy?
    rw [mem_portGroupRows] at hoxg hoyg
    obtain ⟨hoxm, hoxd, hoxp⟩ := hoxg
    obtain ⟨hoym, hoyd, hoyp⟩ := hoyg
    have hxsig : ox.signal = some x := by rw [hoxsig]; exact hoxid
    have hysig : oy.signal = some y := by rw [hoysig]; exact hoyid
    rw [portOf_eq_assign hxsig, hoxd] at hoxp
    rw [portOf_eq_assign hysig, hoyd] at hoyp
    exact qcutAssign_le hoxp hoyp (by omega)
  apply qmean_le_of_forall_le _ hA
  intro x hx
  apply le_qmean_of_forall_le _ hB
  intro y hy
  exact key x hx y hy

/-- C6 witness at the ten-entity scenario: group 1's mean signal 3/2 is at
most group 5's mean signal 19/2. -/
theorem group_one_le_group_top_witness : (3 : ℚ)/2 ≤ 19/2 :=
  group_one_le_group_top scenarioTen 5 28 (by omega) ((3 : ℚ)/2) ((19 : ℚ)/2)
    (by with_unfolding_all decide) (by with_unfolding_all decide)

theorem getD_of_all_eq {xs : List ℚ} {c : ℚ} (h : ∀ x ∈ xs, x = c) {k : Nat}
    (hk : k < xs.length) : xs.getD k 0 = c := by
  rw [List.getD_eq_getElem?_getD, List.getElem?_eq_getElem hk]
  exact h _ (List.getElem_mem _)

theorem quantileAt_const {xs : List ℚ} {c : ℚ} (hall : ∀ x ∈ xs, x = c)
    (hne : xs ≠ []) {p : ℚ} (hp0 : 0 ≤ p) (hp1 : p ≤ 1) :
    quantileAt xs p = c := by
  have hlen : 1 ≤ xs.length := List.length_pos.mpr hne
  rw [quantileAt]
  set pos : ℚ := p * ((xs.length : ℚ) - 1) with hpos
  have hn1 : (0 : ℚ) ≤ (xs.length : ℚ) - 1 := by
    have : (1 : ℚ) ≤ (xs.length : ℚ) := by exact_mod_cast hlen
    linarith
  have hpos0 : 0 ≤ pos := mul_nonneg hp0 hn1
  have hposle : pos ≤ (xs.length : ℚ) - 1 := by
    calc pos ≤ 1 * ((xs.length : ℚ) - 1) := by
          exact mul_le_mul_of_nonneg_right hp1 hn1
      _ = (xs.length : ℚ) - 1 := one_mul _
  have hfl0 : 0 ≤ Int.floor pos := Int.floor_nonneg.mpr hpos0
  have hfl_le : Int.floor pos ≤ (xs.length : Int) - 1 := by
    have h2 : pos ≤ ((((xs.length : Int) - 1 : Int)) : ℚ) := by
      push_cast
      linarith [hposle]
    have h3 : Int.floor pos ≤ Int.floor ((((xs.length : Int) - 1 : Int)) : ℚ) :=
      Int.floor_le_floor h2
    rwa [Int.floor_intCast] at h3
  have hlo_lt : (Int.floor pos).toNat < xs.length := by omega
  have ha : xs.getD (Int.floor pos).toNat 0 = c := getD_of_all_eq hall hlo_lt
  rw [ha]
  have hb : xs.getD ((Int.floor pos).toNat + 1) c = c := by
    by_cases hb_lt : (Int.floor pos).toNat + 1 < xs.length
    · rw [List.getD_eq_getElem?_getD, List.getElem?_eq_getElem hb_lt]
      exact hall _ (List.getElem_mem _)
    · rw [List.getD_eq_getElem?_getD, List.getElem?_eq_none (by omega)]
      rfl
  rw [hb]
  ring

theorem dedup_replicate (n : Nat) (c : ℚ) :
    (List.replicate (n + 1) c).dedup = [c] := by
  induction n with
  | zero => rfl
  | succ n ih =>
    rw [List.replicate_succ,
      List.dedup_cons_of_mem (List.mem_replicate.mpr ⟨by omega, rfl⟩), ih]

/-- C3 amended: a period with fewer non-missing observations than n_groups
does not by itself raise an error (see the counterexample above); the
summarizer fails only when some period's quantile bin edges are duplicated,
as happens whenever all of a period's non-missing signal values are equal
and n_groups ≥ 2. -/
theorem summarize_error_on_tied_period (obs : List Obs) (q : Nat) (d : Nat) (c : ℚ)
    (hq : 2 ≤ q) (hd : d ∈ datesOf obs)
    (hne : (groupSignals obs d).filterMap id ≠ [])
    (hall : ∀ v ∈ (groupSignals obs d).filterMap id, v = c) :
    summarize obs q = .error "Bin edges must be unique" := by
  have hsorted_all : ∀ x ∈ sortAsc ((groupSignals obs d).filterMap id), x = c := by
    intro x hx
    exact hall x ((sortAsc_perm _).subset hx)
  have hsorted_ne : sortAsc ((groupSignals obs d).filterMap id) ≠ [] :=
    sortAsc_ne_nil hne
  have hedges : qcutEdges ((groupSignals obs d).filterMap id) q
      = List.replicate (q + 1) c := by
    rw [qcutEdges]
    have hcongr : ∀ i ∈ List.range (q + 1),
        quantileAt (sortAsc ((groupSignals obs d).filterMap id)) ((i : ℚ) / (q : ℚ)) = c := by
      intro i hi
      rw [List.mem_range] at hi
      have hqpos : (0 : ℚ) < (q : ℚ) := by exact_mod_cast (by omega : 0 < q)
      apply quantileAt_const hsorted_all hsorted_ne
      · positivity
      · rw [div_le_one hqpos]
        exact_mod_cast (by omega : i ≤ q)
    rw [List.map_congr_left hcongr, List.map_const', List.length_range]
  have hqcut : qcutOk (groupSignals obs d) q = false := by
    simp only [qcutOk]
    have hnmE : ((groupSignals obs d).filterMap id).isEmpty = false := by
      cases hnm2 : (groupSignals obs d).filterMap id with
      | nil => exact absurd hnm2 hne
      | cons x t => rfl
    rw [hnmE]
    simp only [Bool.false_eq_true, if_false]
    rw [hedges, dedup_replicate, List.length_replicate]
    rw [decide_eq_false_iff_not]
    push_neg
    constructor
    · simp only [List.length_cons, List.length_nil]
      omega
    · omega
  rw [summarize, if_neg]
  intro hAll
  have := List.all_eq_true.mp hAll d hd
  rw [hqcut] at this
  cases this

/-- C3 amended witness: a period whose three non-missing signal values are
all equal raises qcut's duplicate-edges ValueError with n_groups = 5. -/
theorem summarize_error_on_tied_period_witness :
    summarize scenarioTied 5 = .error "Bin edges must be unique" :=
  summarize_error_on_tied_period scenarioTied 5 28 7 (by omega)
    (by decide) (by with_unfolding_all decide) (by with_unfolding_all decide)

/-! ### Structure of the port table under the two group-bys -/

theorem filter_flatMap {α β : Type} (l : List α) (f : α → List β) (p : β → Bool) :
    (l.flatMap f).filter p = l.flatMap (fun a => (f a).filter p) := by
  induction l with
  | nil => rfl
  | cons a t ih => rw [List.flatMap_cons, List.filter_append, ih, List.flatMap_cons]

theorem range_filter_succ_eq {g : Nat} (h1 : 1 ≤ g) :
    ∀ q, g ≤ q → (List.range q).filter (fun g0 => g0 + 1 == g) = [g - 1] := by
  intro q
  induction q with
  | zero => intro h; exact absurd h (by omega)
  | succ q ih =>
    intro hq
    rw [List.range_succ, List.filter_append]
    by_cases hgq : g ≤ q
    · rw [ih hgq]
      have hne : ((q + 1 == g) : Bool) = false := by
        rw [beq_eq_false_iff_ne]
        omega
      rw [List.filter_cons, hne]
      simp only [Bool.false_eq_true, if_false, List.filter_nil, List.append_nil]
    · have hg : g = q + 1 := by omega
      subst hg
      have hempty : (List.range q).filter (fun g0 => g0 + 1 == q + 1) = [] := by
        rw [List.filter_eq_nil_iff]
        intro a ha hcon
        rw [List.mem_range] at ha
        rw [beq_iff_eq] at hcon
        omega
      rw [hempty, List.nil_append, List.filter_cons]
      rw [beq_self_eq_true]
      simp only [if_true, List.filter_nil]
      norm_num

theorem filter_port_flatMap (obs : List Obs) (q g : Nat) (h1 : 1 ≤ g) (hq : g ≤ q) :
    ∀ ds : List Nat,
      ((ds.flatMap (fun d =>
          (List.range q).map (fun g0 => portRowOf obs q d (g0 + 1)))).filter
            (fun r => r.port == g))
        = ds.map (fun d => portRowOf obs q d g) := by
  intro ds
  induction ds with
  | nil => rfl
  | cons d t ih =>
    rw [List.flatMap_cons, List.filter_append, ih, List.filter_map]
    have hcomp : ((fun r : PortRow => r.port == g) ∘ fun g0 : Nat => portRowOf obs q d (g0 + 1))
        = fun g0 : Nat => g0 + 1 == g := rfl
    rw [hcomp, range_filter_succ_eq h1 q hq, List.map_cons, List.map_nil]
    have hg1 : g - 1 + 1 = g := by omega
    rw [hg1, List.map_cons]
    rfl

theorem summaryRows_eq_map (obs : List Obs) (q g : Nat) (h1 : 1 ≤ g) (hq : g ≤ q) :
    summaryRows obs q g = (sortedDates obs).map (fun d => portRowOf obs q d g) := by
  rw [summaryRows, portTable]
  exact filter_port_flatMap obs q g h1 hq (sortedDates obs)

theorem filter_date_flatMap (obs : List Obs) (q d : Nat) :
    ∀ ds : List Nat, ds.Nodup → d ∈ ds →
      ((ds.flatMap (fun d2 =>
          (List.range q).map (fun g0 => portRowOf obs q d2 (g0 + 1)))).filter
            (fun r => r.date == d))
        = (List.range q).map (fun g0 => portRowOf obs q d (g0 + 1)) := by
  have hrowdate : ∀ d2 : Nat, ∀ r ∈ (List.range q).map (fun g0 => portRowOf obs q d2 (g0 + 1)),
      r.date = d2 := by
    intro d2 r hr
    rw [List.mem_map] at hr
    obtain ⟨g0, _, hr2⟩ := hr
    rw [← hr2]
    rfl
  intro ds
  induction ds with
  | nil => intro _ h; cases h
  | cons a t ih =>
    intro hnd hmem
    rw [List.flatMap_cons, List.filter_append]
    rcases List.mem_cons.mp hmem with rfl | hmemt
    · have hfilter1 : (((List.range q).map (fun g0 => portRowOf obs q d (g0 + 1))).filter
          (fun r => r.date == d))
          = (List.range q).map (fun g0 => portRowOf obs q d (g0 + 1)) := by
        rw [List.filter_eq_self]
        intro r hr
        rw [beq_iff_eq]
        exact hrowdate d r hr
      have hnotmem : d ∉ t := (List.nodup_cons.mp hnd).1
      have hfilter2 : ((t.flatMap (fun d2 =>
          (List.range q).map (fun g0 => portRowOf obs q d2 (g0 + 1)))).filter
            (fun r => r.date == d)) = [] := by
        rw [List.filter_eq_nil_iff]
        intro r hr hcon
        rw [List.mem_flatMap] at hr
        obtain ⟨d2, hd2, hrmem⟩ := hr
        rw [beq_iff_eq] at hcon
        rw [hrowdate d2 r hrmem] at hcon
        exact hnotmem (hcon ▸ hd2)
      rw [hfilter1, hfilter2, List.append_nil]
    · have hanem : a ≠ d := by
        intro h
        exact (List.nodup_cons.mp hnd).1 (h ▸ hmemt)
      have hfilter1 : (((List.range q).map (fun g0 => portRowOf obs q a (g0 + 1))).filter
          (fun r => r.date == d)) = [] := by
        rw [List.filter_eq_nil_iff]
        intro r hr hcon
        rw [beq_iff_eq] at hcon
        rw [hrowdate a r hr] at hcon
        exact hanem hcon
      rw [hfilter1, List.nil_append]
      exact ih (List.nodup_cons.mp hnd).2 hmemt

theorem sortedDates_nodup (obs : List Obs) : (sortedDates obs).Nodup :=
  ((List.perm_insertionSort (· ≤ ·) (datesOf obs)).nodup_iff).mpr
    (List.nodup_dedup _)

theorem mem_sortedDates {obs : List Obs} {d : Nat} :
    d ∈ sortedDates obs ↔ d ∈ datesOf obs :=
  (List.perm_insertionSort (· ≤ ·) (datesOf obs)).mem_iff

theorem sortedDates_length (obs : List Obs) :
    (sortedDates obs).length = (datesOf obs).length :=
  (List.perm_insertionSort (· ≤ ·) (datesOf obs)).length_eq

theorem datesOf_ne_nil {obs : List Obs} (hne : obs ≠ []) : datesOf obs ≠ [] := by
  cases obs with
  | nil => exact absurd rfl hne
  | cons o t =>
    intro hnil
    have hmem : o.date ∈ datesOf (o :: t) := by
      rw [datesOf, List.mem_dedup, List.map_cons]
      exact List.mem_cons_self _ _
    rw [hnil] at hmem
    cases hmem

theorem sortedDates_ne_nil {obs : List Obs} (hne : obs ≠ []) : sortedDates obs ≠ [] := by
  intro hnil
  have hperm := List.perm_insertionSort (· ≤ ·) (datesOf obs)
  rw [sortedDates] at hnil
  rw [hnil] at hperm
  exact datesOf_ne_nil hne (hperm.symm.eq_nil)

/-! ### Minimum and maximum of a list of naturals -/

theorem nat_min?_spec {l : List Nat} (hne : l ≠ []) :
    ∃ m, l.min? = some m ∧ m ∈ l ∧ ∀ x ∈ l, m ≤ x := by
  cases hl : l.min? with
  | none => exact absurd (List.min?_eq_none_iff.mp hl) hne
  | some m =>
    have h := (List.min?_eq_some_iff (fun a => Nat.le_refl a)
      (fun a b => by omega) (fun a b c => by omega)).mp hl
    exact ⟨m, rfl, h.1, h.2⟩

theorem nat_max?_spec {l : List Nat} (hne : l ≠ []) :
    ∃ m, l.max? = some m ∧ m ∈ l ∧ ∀ x ∈ l, x ≤ m := by
  cases hl : l.max? with
  | none => exact absurd (List.max?_eq_none_iff.mp hl) hne
  | some m =>
    have h := (List.max?_eq_some_iff (fun a => Nat.le_refl a)
      (fun a b => by omega) (fun a b c => by omega)).mp hl
    exact ⟨m, rfl, h.1, h.2⟩

/-! ### Counting observations across groups -/

theorem sum_map_add {α : Type} (l : List α) (f g : α → Nat) :
    (l.map (fun x => f x + g x)).sum = (l.map f).sum + (l.map g).sum := by
  induction l with
  | nil => rfl
  | cons a t ih =>
    rw [List.map_cons, List.map_cons, List.map_cons, List.sum_cons, List.sum_cons,
      List.sum_cons, ih]
    omega

theorem sum_map_zero {α : Type} (l : List α) : (l.map (fun _ => (0 : Nat))).sum = 0 := by
  induction l with
  | nil => rfl
  | cons a t ih => rw [List.map_cons, List.sum_cons, ih]

theorem sum_map_indicator (k : Nat) :
    ∀ q, k < q → ((List.range q).map (fun g0 => if g0 = k then 1 else 0)).sum = 1 := by
  intro q
  induction q with
  | zero => intro h; exact absurd h (by omega)
  | succ q ih =>
    intro hk
    rw [List.range_succ, List.map_append, List.sum_append]
    by_cases hkq : k < q
    · rw [ih hkq]
      have hne : ¬(q = k) := by omega
      rw [List.map_cons, List.map_nil, if_neg hne]
      rfl
    · have hqk : q = k := by omega
      have hzero : ∀ g0 ∈ List.range q, (if g0 = k then 1 else 0) = 0 := by
        intro g0 hg0
        rw [List.mem_range] at hg0
        rw [if_neg (by omega)]
      rw [List.map_congr_left hzero, sum_map_zero, List.map_cons, List.map_nil,
        if_pos hqk]
      rfl

theorem sum_group_counts (f : Obs → Option Nat) (q d : Nat) :
    ∀ l : List Obs,
      (∀ o ∈ l, o.date = d →
        ((∃ g, f o = some g ∧ 1 ≤ g ∧ g ≤ q) ↔ o.signal.isSome = true)) →
      ((List.range q).map (fun g0 =>
          l.countP (fun o => o.date == d && f o == some (g0 + 1)))).sum
        = l.countP (fun o => o.date == d && o.signal.isSome) := by
  intro l
  induction l with
  | nil =>
    intro _
    have h0 : ∀ g0 ∈ List.range q,
        (List.countP (fun o => o.date == d && f o == some (g0 + 1)) []) = 0 := by
      intro g0 _
      rfl
    rw [List.map_congr_left h0, sum_map_zero]
    rfl
  | cons o t ih =>
    intro hf
    have iht := ih (fun o2 ho2 => hf o2 (List.mem_cons_of_mem _ ho2))
    have hsplit : ((List.range q).map (fun g0 =>
        List.countP (fun o2 => o2.date == d && f o2 == some (g0 + 1)) (o :: t))).sum
      = ((List.range q).map (fun g0 =>
          List.countP (fun o2 => o2.date == d && f o2 == some (g0 + 1)) t)).sum
        + ((List.range q).map (fun g0 =>
            if (o.date == d && f o == some (g0 + 1)) = true then 1 else 0)).sum := by
      rw [← sum_map_add]
      apply congrArg
      apply List.map_congr_left
      intro g0 _
      rw [List.countP_cons]
    rw [hsplit, iht, List.countP_cons]
    apply congrArg
    by_cases hdate : o.date = d
    · have hbeq : (o.date == d) = true := beq_iff_eq.mpr hdate
      by_cases hsig : o.signal.isSome = true
      · obtain ⟨g, hg, hg1, hgq⟩ := (hf o (List.mem_cons_self _ _) hdate).mpr hsig
        have hmapeq : ∀ g0 ∈ List.range q,
            (if (o.date == d && f o == some (g0 + 1)) = true then 1 else 0)
              = if g0 = g - 1 then 1 else 0 := by
          intro g0 hg0
          rw [List.mem_range] at hg0
          rw [hbeq, Bool.true_and, hg]
          by_cases hgg : g0 = g - 1
          · have hgsucc : g0 + 1 = g := by omega
            rw [if_pos hgg, hgsucc, beq_self_eq_true, if_pos rfl]
          · rw [if_neg hgg, if_neg]
            intro hcon
            rw [beq_iff_eq] at hcon
            have := Option.some.inj hcon
            omega
        rw [List.map_congr_left hmapeq, sum_map_indicator (g - 1) q (by omega)]
        rw [if_pos]
        rw [hbeq, Bool.true_and]
        exact hsig
      · have hnone : ∀ g0 ∈ List.range q,
            (if (o.date == d && f o == some (g0 + 1)) = true then 1 else 0) = 0 := by
          intro g0 hg0
          rw [List.mem_range] at hg0
          rw [if_neg]
          intro hcon
          rw [Bool.and_eq_true] at hcon
          have hfo : f o = some (g0 + 1) := by
            have h2 := hcon.2
            rwa [beq_iff_eq] at h2
          exact hsig ((hf o (List.mem_cons_self _ _) hdate).mp
            ⟨g0 + 1, hfo, by omega, by omega⟩)
        rw [List.map_congr_left hnone, sum_map_zero, if_neg]
        intro hcon
        rw [Bool.and_eq_true] at hcon
        exact hsig hcon.2
    · have hfalse : (o.date == d) = false := beq_eq_false_iff_ne.mpr hdate
      have hzero : ∀ g0 ∈ List.range q,
          (if (o.date == d && f o == some (g0 + 1)) = true then 1 else 0) = 0 := by
        intro g0 _
        rw [hfalse, Bool.false_and, if_neg]
        intro hcon
        cases hcon
      rw [List.map_congr_left hzero, sum_map_zero, hfalse, Bool.false_and, if_neg]
      intro hcon
      cases hcon

/-- C5: for every period, the per-group stock counts in the port table sum
to the number of observations with a non-missing signal value in that
period. -/
theorem period_counts (obs : List Obs) (q : Nat) (s : List GroupSummary)
    (hq : 1 ≤ q) (_hs : summarize obs q = .ok s) (d : Nat) (hd : d ∈ datesOf obs) :
    (((portTable obs q).filter (fun r => r.date == d)).map (·.nstock)).sum
      = (obs.filter (fun o => o.date == d && o.signal.isSome)).length := by
  have hds : d ∈ sortedDates obs := mem_sortedDates.mpr hd
  rw [portTable, filter_date_flatMap obs q d (sortedDates obs) (sortedDates_nodup obs) hds]
  rw [List.map_map]
  have hcomp : ((fun r : PortRow => r.nstock) ∘ fun g0 : Nat => portRowOf obs q d (g0 + 1))
      = fun g0 : Nat => (portGroupRows obs q d (g0 + 1)).length := rfl
  rw [hcomp]
  have hlen : ∀ g0 ∈ List.range q, (portGroupRows obs q d (g0 + 1)).length
      = obs.countP (fun o => o.date == d && portOf obs q o == some (g0 + 1)) := by
    intro g0 _
    rw [portGroupRows, List.countP_eq_length_filter]
  rw [List.map_congr_left hlen]
  rw [sum_group_counts (portOf obs q) q d obs ?hf]
  case hf =>
    intro o ho _
    constructor
    · rintro ⟨g, hg, _, _⟩
      cases hsig : o.signal with
      | none =>
        rw [portOf, hsig] at hg
        cases hg
      | some v => rfl
    · intro hsig
      obtain ⟨v, hv⟩ := Option.isSome_iff_exists.mp hsig
      obtain ⟨g, hg, hg1, hgq⟩ := qcutAssign_total hq (mem_group_nm ho hv)
      refine ⟨g, ?_, hg1, hgq⟩
      rw [portOf_eq_assign hv]
      exact hg
  rw [List.countP_eq_length_filter]

/-- C5 witness at the three-entity scenario. -/
theorem period_counts_witness :
    (((portTable scenarioThree 5).filter (fun r => r.date == 28)).map (·.nstock)).sum
      = (scenarioThree.filter (fun o => o.date == 28 && o.signal.isSome)).length :=
  period_counts scenarioThree 5 (portSummary scenarioThree 5) (by omega)
    (by with_unfolding_all rfl) 28 (by decide)

theorem summaryRowOf_nstockMean (obs : List Obs) (q g : Nat) :
    (summaryRowOf obs q g).nstockMean
      = if (summaryRows obs q g).isEmpty then none
        else some (qmean ((summaryRows obs q g).map (fun r => (r.nstock : ℚ)))) := rfl

theorem summaryRowOf_dateMin (obs : List Obs) (q g : Nat) :
    (summaryRowOf obs q g).dateMin = ((summaryRows obs q g).map (·.date)).min? := rfl

theorem summaryRowOf_dateMax (obs : List Obs) (q g : Nat) :
    (summaryRowOf obs q g).dateMax = ((summaryRows obs q g).map (·.date)).max? := rfl

/-- C10: because both group-bys use observed=False, the port table has one
row for every pair of an observed period and a group label 1..n_groups
(empty cells getting stock count 0 and missing mean return); every group's
summary row therefore averages stock counts over all periods, and its first
and last period are the global minimum and maximum period, identical for
every group. -/
theorem observed_false_structure (obs : List Obs) (q : Nat) (s : List GroupSummary)
    (_hs : summarize obs q = .ok s) (hne : obs ≠ []) (g : Nat) (h1 : 1 ≤ g) (hgq : g ≤ q) :
    (∀ d ∈ datesOf obs, ∃ r ∈ portTable obs q, r.date = d ∧ r.port = g ∧
        (portGroupRows obs q d g = [] → r.nstock = 0 ∧ r.ret = none)) ∧
    (summaryRows obs q g).length = (datesOf obs).length ∧
    (∃ gs, (portSummary obs q)[g - 1]? = some gs ∧
      gs.nstockMean
        = some (qmean ((summaryRows obs q g).map (fun r => (r.nstock : ℚ)))) ∧
      (∃ m, gs.dateMin = some m ∧ m ∈ datesOf obs ∧ ∀ d2 ∈ datesOf obs, m ≤ d2) ∧
      (∃ M, gs.dateMax = some M ∧ M ∈ datesOf obs ∧ ∀ d2 ∈ datesOf obs, d2 ≤ M)) := by
  have hg1 : g - 1 + 1 = g := by omega
  have hrows := summaryRows_eq_map obs q g h1 hgq
  have hrlen : (summaryRows obs q g).length = (datesOf obs).length := by
    rw [hrows, List.length_map, sortedDates_length]
  have hdates : (summaryRows obs q g).map (·.date) = sortedDates obs := by
    rw [hrows, List.map_map]
    have hcomp : ((fun r : PortRow => r.date) ∘ fun d => portRowOf obs q d g)
        = fun d : Nat => d := rfl
    rw [hcomp, List.map_id']
  refine ⟨?_, hrlen, ?_⟩
  · intro d hd
    refine ⟨portRowOf obs q d g, ?_, rfl, rfl, ?_⟩
    · rw [portTable, List.mem_flatMap]
      refine ⟨d, mem_sortedDates.mpr hd, ?_⟩
      rw [List.mem_map]
      exact ⟨g - 1, List.mem_range.mpr (by omega), by rw [hg1]⟩
    · intro hempty
      constructor
      · show (portGroupRows obs q d g).length = 0
        rw [hempty]
        rfl
      · show meanOpt ((portGroupRows obs q d g).map (·.ret)) = none
        rw [hempty]
        rfl
  · refine ⟨summaryRowOf obs q g, ?_, ?_, ?_, ?_⟩
    · rw [portSummary, List.getElem?_map, List.getElem?_range (by omega : g - 1 < q)]
      show some (summaryRowOf obs q (g - 1 + 1)) = some (summaryRowOf obs q g)
      rw [hg1]
    · rw [summaryRowOf_nstockMean, if_neg]
      intro hcon
      have : (summaryRows obs q g).length = 0 := by
        rw [List.isEmpty_iff] at hcon
        rw [hcon]
        rfl
      rw [hrlen] at this
      exact datesOf_ne_nil hne (List.length_eq_zero.mp this)
    · rw [summaryRowOf_dateMin, hdates]
      obtain ⟨m, hm, hmem, hle⟩ := nat_min?_spec (sortedDates_ne_nil hne)
      exact ⟨m, hm, mem_sortedDates.mp hmem,
        fun d2 hd2 => hle d2 (mem_sortedDates.mpr hd2)⟩
    · rw [summaryRowOf_dateMax, hdates]
      obtain ⟨M, hM, hmem, hle⟩ := nat_max?_spec (sortedDates_ne_nil hne)
      exact ⟨M, hM, mem_sortedDates.mp hmem,
        fun d2 hd2 => hle d2 (mem_sortedDates.mpr hd2)⟩

/-- C10 witness at the three-entity scenario with the empty group 2. -/
theorem observed_false_structure_witness :
    (summaryRows scenarioThree 5 2).length = (datesOf scenarioThree).length ∧
    ∃ gs, (portSummary scenarioThree 5)[2 - 1]? = some gs ∧ ∃ m, gs.dateMin = some m := by
  have h := observed_false_structure scenarioThree 5 (portSummary scenarioThree 5)
    (by with_unfolding_all rfl) (by decide) 2 (by omega) (by omega)
  obtain ⟨gs, hgs, _, ⟨m, hm, _, _⟩, _⟩ := h.2.2
  exact ⟨h.2.1, gs, hgs, m, hm⟩

end OpenAP
